import Mathlib

/-!
Verification of the Finance_Automator valuation/derivation core.

Shallow embedding conventions:
* Dates are already-normalized ISO dates encoded as naturals (e.g. 20240102);
  an event whose stored date is empty or unparsable carries `none`.
* Python floats are modeled as rationals.
* Python strings are modeled as lists of characters (`Str`); str.startswith
  is `List.isPrefixOf`.
* Filesystem/network effects are passed explicitly: fetched price/dividend
  series are parameters, file writes are returned values, and mtimes are
  rational parameters.
-/

/-- Python strings, modeled as character lists so that prefix tests compute. -/
abbrev Str := List Char

/-- models.EventType. -/
inductive EventType where
  | purchase
  | sale
  | dividend
  | cash_deposit
  | cash_withdrawal
deriving DecidableEq

/-- models.Event.  The date field is the normalized date; `none` stands for an
empty or unparsable date string. -/
structure Event where
  date : Option Nat
  type : EventType
  shares : ℚ
  price : ℚ
  amount : ℚ
  note : Str
deriving DecidableEq

/-- Signed share delta of one event: purchase adds shares, sale removes them,
every other event type contributes zero (values_cache lines 99-102,
dividends lines 47-50). -/
def signedDelta (e : Event) : ℚ :=
  match e.type with
  | EventType.purchase => e.shares
  | EventType.sale => -e.shares
  | _ => 0

/-- Whether an event has a (valid) normalized date at or before the cutoff. -/
def dateLE (cutoff : Nat) (e : Event) : Bool :=
  match e.date with
  | some d => decide (d ≤ cutoff)
  | none => false

/-- Sum of signed share deltas over events dated at or before the cutoff. -/
def sumDeltasUpTo (events : List Event) (cutoff : Nat) : ℚ :=
  ((events.filter (dateLE cutoff)).map signedDelta).sum

/-- Sort key mirroring lexicographic order of normalized date strings: the
empty string (a dateless event) sorts before every valid date. -/
def dateKey : Option Nat → Nat
  | none => 0
  | some d => d + 1

/-- Comparison used by the sorted(...) calls over a holding's events. -/
def eventDateLE (a b : Event) : Prop := dateKey a.date ≤ dateKey b.date

instance : DecidableRel eventDateLE := fun _ _ => Nat.decLe _ _

instance : IsTotal Event eventDateLE := ⟨fun _ _ => Nat.le_total _ _⟩

instance : IsTrans Event eventDateLE := ⟨fun _ _ _ h1 h2 => Nat.le_trans h1 h2⟩

/-- sorted(holding.events, key=normalized date). -/
def sortEventsByDate (l : List Event) : List Event := List.insertionSort eventDateLE l

/-! ## Value-Cache Engine (src/values_cache.py) -/

/-- pandas Index.searchsorted(ts, side="left") on a sorted date index: the
first position whose date is at or after the event date (length if none). -/
def alignPos (dates : List Nat) (d : Nat) : Nat := dates.findIdx (fun x => d ≤ x)

/-- Body of the event loop of compute_and_write_values_for_holding (lines
87-102): add the signed delta at the aligned position, skipping events with
no valid date and events past the last known price. -/
def applyEvent (dates : List Nat) (changes : List ℚ) (e : Event) : List ℚ :=
  match e.date with
  | none => changes
  | some d =>
    let pos := alignPos dates d
    if pos < changes.length then changes.set pos (changes.getD pos 0 + signedDelta e)
    else changes

/-- The zero-initialized delta series after folding all events (sorted by
date, as the source does). -/
def buildChanges (dates : List Nat) (events : List Event) : List ℚ :=
  (sortEventsByDate events).foldl (applyEvent dates) (List.replicate dates.length 0)

/-- pandas Series.cumsum. -/
def cumsumFrom (acc : ℚ) : List ℚ → List ℚ
  | [] => []
  | x :: xs => (acc + x) :: cumsumFrom (acc + x) xs

/-- One persisted row of a symbol's value cache. -/
structure ValueRow where
  date : Nat
  shares : ℚ
  value : ℚ
deriving DecidableEq

/-- The ValueRow series computed by compute_and_write_values_for_holding from
a non-empty price series (lines 82-105).  The input price list is the
post-dropna Close series: strictly-increasing dates, every row priced. -/
def computeRows (prices : List (Nat × ℚ)) (events : List Event) : List ValueRow :=
  let dates := prices.map Prod.fst
  let shares := cumsumFrom 0 (buildChanges dates events)
  (prices.zip shares).map fun pr => ⟨pr.1.1, pr.2, pr.2 * pr.1.2⟩

/-- compute_and_write_values_for_holding (lines 70-109): `fetched` is the
price series returned by the gateway (`none` models the df-is-None check).
Returns the rows written to the symbol's value-cache CSV (an empty list is
the header-only date,shares,value file) and the success flag; the function
is total, mirroring that this path raises no exception. -/
def compute_and_write_values_for_holding (fetched : Option (List (Nat × ℚ)))
    (events : List Event) : List ValueRow × Bool :=
  match fetched with
  | none => ([], false)
  | some prices =>
    if prices.isEmpty then ([], false) else (computeRows prices events, true)

/-- Prefix sum of the first i+1 entries. -/
def takeSum (l : List ℚ) (i : Nat) : ℚ := (l.take (i + 1)).sum

/-- Whether an event's delta lands at row i or earlier: it has a valid date
that aligns inside the price index at a position at most i. -/
def contributes (dates : List Nat) (i : Nat) (e : Event) : Bool :=
  match e.date with
  | none => false
  | some d => decide (alignPos dates d ≤ i) && decide (alignPos dates d < dates.length)

/-! ## Dividend Ingestion Engine (src/dividends.py) -/

/-- The DIV:SYMBOL idempotence marker (DIV_NOTE_PREFIX + symbol). -/
def divNote (symbol : Str) : Str := ['D', 'I', 'V', ':'] ++ symbol

/-- The DRIP:SYMBOL idempotence marker (DRIP_NOTE_PREFIX + symbol). -/
def dripNote (symbol : Str) : Str := ['D', 'R', 'I', 'P', ':'] ++ symbol

/-- dividends._has_symbol_dividend_on_date (lines 63-68). -/
def has_symbol_dividend_on_date (events : List Event) (symbol : Str) (d : Nat) : Bool :=
  events.any fun e =>
    decide (e.type = EventType.dividend) && decide (e.date = some d)
      && (divNote symbol).isPrefixOf e.note

/-- dividends._has_drip_purchase_on_date (lines 71-76). -/
def has_drip_purchase_on_date (events : List Event) (symbol : Str) (d : Nat) : Bool :=
  events.any fun e =>
    decide (e.type = EventType.purchase) && decide (e.date = some d)
      && (dripNote symbol).isPrefixOf e.note

/-- dividends._has_cash_dividend_on_date over portfolio.cash_events
(lines 55-60). -/
def has_cash_dividend_on_date (cashEvents : List Event) (symbol : Str) (d : Nat) : Bool :=
  cashEvents.any fun e =>
    decide (e.type = EventType.dividend) && decide (e.date = some d)
      && (divNote symbol).isPrefixOf e.note

/-- The event loop of compute_owned_shares_on_date (lines 40-51): walk the
date-sorted events, skip dateless ones, stop (break) at the first event past
the target, otherwise accumulate the signed delta. -/
def sharesUpTo (target : Nat) : List Event → ℚ
  | [] => 0
  | e :: rest =>
    match e.date with
    | none => sharesUpTo target rest
    | some d => if target < d then 0 else signedDelta e + sharesUpTo target rest

/-- dividends.compute_owned_shares_on_date (lines 36-52), result clamped to
be nonnegative. -/
def compute_owned_shares_on_date (events : List Event) (target : Nat) : ℚ :=
  max (sharesUpTo target (sortEventsByDate events)) 0

/-- The holding-level dividend event appended by ingestion (lines 160-165). -/
def mkDividendEvent (symbol : Str) (d : Nat) (cash : ℚ) : Event :=
  ⟨some d, EventType.dividend, 0, 0, cash, divNote symbol⟩

/-- The DRIP purchase event appended by ingestion (lines 173-180). -/
def mkDripEvent (symbol : Str) (d : Nat) (cash price : ℚ) : Event :=
  ⟨some d, EventType.purchase, cash / price, price, 0, dripNote symbol⟩

/-- The mutable state ingestion acts on: the holding's event list and the
portfolio's cash_events list. -/
structure IngestState where
  holdingEvents : List Event
  cashEvents : List Event
deriving DecidableEq

/-- Holding-level dividend posting (lines 158-166): marker-checked append. -/
def divPhase (symbol : Str) (d : Nat) (cash : ℚ) (sc : IngestState × Nat) :
    IngestState × Nat :=
  if has_symbol_dividend_on_date sc.1.holdingEvents symbol d then sc
  else ({ sc.1 with holdingEvents := sc.1.holdingEvents ++ [mkDividendEvent symbol d cash] },
        sc.2 + 1)

/-- DRIP posting (lines 168-181): marker-checked, requires a positive first
available close price on or after the ex-date (priceOn models
_first_available_close_price). -/
def dripPhase (symbol : Str) (d : Nat) (cash : ℚ) (priceOn : Nat → Option ℚ)
    (sc : IngestState × Nat) : IngestState × Nat :=
  if has_drip_purchase_on_date sc.1.holdingEvents symbol d then sc
  else
    match priceOn d with
    | none => sc
    | some price =>
      if 0 < price then
        ({ sc.1 with holdingEvents := sc.1.holdingEvents ++ [mkDripEvent symbol d cash price] },
         sc.2 + 1)
      else sc

/-- Cash dividend posting (lines 182-190): marker-checked append to the
portfolio's cash_events. -/
def cashPhase (symbol : Str) (d : Nat) (cash : ℚ) (sc : IngestState × Nat) :
    IngestState × Nat :=
  if has_cash_dividend_on_date sc.1.cashEvents symbol d then sc
  else ({ sc.1 with cashEvents := sc.1.cashEvents ++ [mkDividendEvent symbol d cash] },
        sc.2 + 1)

/-- One iteration of the ex-date loop of ingest_dividends_for_holding_range
(lines 147-190): skip if no shares are owned on the ex-date or the cash
amount is zero, else post the dividend and then the DRIP purchase or cash
event. -/
def ingestStep (symbol : Str) (reinvest : Bool) (priceOn : Nat → Option ℚ)
    (sc : IngestState × Nat) (p : Nat × ℚ) : IngestState × Nat :=
  let owned := compute_owned_shares_on_date sc.1.holdingEvents p.1
  if owned ≤ 0 then sc
  else
    let cash := p.2 * owned
    if cash = 0 then sc
    else
      let sc1 := divPhase symbol p.1 cash sc
      if reinvest then dripPhase symbol p.1 cash priceOn sc1
      else cashPhase symbol p.1 cash sc1

/-- dividends.ingest_dividends_for_holding_range (lines 139-191): fold the
ex-date loop over the fetched dividend series, returning the final state and
the number of events added.  An empty series yields zero changes. -/
def ingest_dividends_for_holding_range (symbol : Str) (reinvest : Bool)
    (priceOn : Nat → Option ℚ) (s0 : IngestState) (series : List (Nat × ℚ)) :
    IngestState × Nat :=
  series.foldl (ingestStep symbol reinvest priceOn) (s0, 0)

/-- Python dict upsert merged[iso] = val on an association list. -/
def upsertEntry (m : List (Nat × ℚ)) (k : Nat) (v : ℚ) : List (Nat × ℚ) :=
  if m.any (fun q => q.1 == k) then m.map (fun q => if q.1 == k then (k, v) else q)
  else m ++ [(k, v)]

/-- dividends._write_dividend_cache (lines 119-132): merge the full fetched
series over the existing per-symbol date-to-per-share map. -/
def write_dividend_cache (m : List (Nat × ℚ)) (series : List (Nat × ℚ)) :
    List (Nat × ℚ) :=
  series.foldl (fun acc q => upsertEntry acc q.1 q.2) m

/-- Result of one holding's cycle inside cache_and_ingest_dividends_for_file. -/
structure HoldingCycleResult where
  state : IngestState
  cache : List (Nat × ℚ)
  changes : Nat
deriving DecidableEq

/-- The per-holding body of cache_and_ingest_dividends_for_file (lines
198-222): skip when the fetched series is empty or brings no date absent
from the persisted dividend cache; otherwise ingest over the full range,
rewrite the cache with the merged series, and if any events were added run
exactly one more ingestion pass over the same range. -/
def cache_and_ingest_dividends_for_holding (symbol : Str) (reinvest : Bool)
    (priceOn : Nat → Option ℚ) (series : List (Nat × ℚ)) (cacheMap : List (Nat × ℚ))
    (s0 : IngestState) : HoldingCycleResult :=
  if series.isEmpty then ⟨s0, cacheMap, 0⟩
  else
    let cachedDates := cacheMap.map Prod.fst
    let newDates := (series.map Prod.fst).filter fun d => !(cachedDates.contains d)
    if newDates.isEmpty && !cachedDates.isEmpty then ⟨s0, cacheMap, 0⟩
    else
      let r1 := ingest_dividends_for_holding_range symbol reinvest priceOn s0 series
      let cache2 := write_dividend_cache cacheMap series
      if 0 < r1.2 then
        let r2 := ingest_dividends_for_holding_range symbol reinvest priceOn r1.1 series
        ⟨r2.1, cache2, r1.2 + r2.2⟩
      else ⟨r1.1, cache2, r1.2⟩

/-- A positive price is available on/after the date (the condition under
which the source creates a DRIP purchase). -/
def goodPrice (priceOn : Nat → Option ℚ) (d : Nat) : Prop :=
  ∃ q, priceOn d = some q ∧ 0 < q

/-- An ex-date entry at which ingestion can add nothing to the given state:
either no shares are owned, or the per-share amount is zero, or every event
the entry could create is already marked present. -/
def Settled (symbol : Str) (reinvest : Bool) (priceOn : Nat → Option ℚ)
    (s : IngestState) (p : Nat × ℚ) : Prop :=
  compute_owned_shares_on_date s.holdingEvents p.1 ≤ 0
  ∨ p.2 = 0
  ∨ (has_symbol_dividend_on_date s.holdingEvents symbol p.1 = true
     ∧ (reinvest = true →
          has_drip_purchase_on_date s.holdingEvents symbol p.1 = true
          ∨ ¬ goodPrice priceOn p.1)
     ∧ (reinvest = false → has_cash_dividend_on_date s.cashEvents symbol p.1 = true))

/-! ## Value-cache warming (src/values_cache.py lines 112-133) -/

/-- Python str.upper on a modeled string. -/
def strUpper (s : Str) : Str := s.map Char.toUpper

/-- values_cache.clear_symbol_dirty (lines 47-51) acting on the persisted
dirty-set contents. -/
def clear_symbol_dirty (dirtyFile : List Str) (symbol : Str) : List Str :=
  if symbol ∈ dirtyFile then dirtyFile.filter (fun s => !(s == symbol)) else dirtyFile

/-- Observable outcome of warm_values_cache_for_portfolio: the returned
counter, the final contents of the persisted dirty set, and the symbols for
which a recompute was invoked (in loop order). -/
structure WarmResult where
  changes : Nat
  dirty : List Str
  calls : List Str
deriving DecidableEq

/-- The staleness condition of warm (line 123): cache missing, or cache
mtime strictly older than the portfolio mtime, or symbol marked dirty. -/
def staleCond (portMtimeEff : ℚ) (dirtySnap : List Str) (cacheExists : Str → Bool)
    (cacheMtime : Str → ℚ) (symbol : Str) : Bool :=
  !(cacheExists symbol)
    || decide ((if cacheExists symbol then cacheMtime symbol else 0) < portMtimeEff)
    || decide (symbol ∈ dirtySnap)

/-- A holding for which warm invokes a recompute: stale and at least one
dated event. -/
def shouldRecompute (portMtimeEff : ℚ) (dirtySnap : List Str) (cacheExists : Str → Bool)
    (cacheMtime : Str → ℚ) (h : Str × List Event) : Bool :=
  staleCond portMtimeEff dirtySnap cacheExists cacheMtime (strUpper h.1)
    && !(h.2.filterMap (fun e => e.date)).isEmpty

/-- One iteration of the holdings loop of warm_values_cache_for_portfolio
(lines 118-131).  The staleness test (staleCond) uses the dirty-set snapshot
read before the loop; clear_symbol_dirty rewrites the dirty file after every
attempted recompute, successful or not.  computeOK abstracts the success
flag of compute_and_write_values_for_holding (it depends on the fetched
prices, which warm does not inspect). -/
def warmStep (portMtimeEff : ℚ) (dirtySnap : List Str) (cacheExists : Str → Bool)
    (cacheMtime : Str → ℚ) (computeOK : Str → Bool) (acc : WarmResult)
    (h : Str × List Event) : WarmResult :=
  let symbol := strUpper h.1
  if staleCond portMtimeEff dirtySnap cacheExists cacheMtime symbol then
    let dates := h.2.filterMap (fun e => e.date)
    if dates.isEmpty then acc
    else
      { changes := if computeOK symbol then acc.changes + 1 else acc.changes
        dirty := clear_symbol_dirty acc.dirty symbol
        calls := acc.calls ++ [symbol] }
  else acc

/-- values_cache.warm_values_cache_for_portfolio (lines 112-133).  portMtime
and the per-symbol cache mtimes are rationals; a missing file has effective
mtime 0.  The dirty set is read once before the loop. -/
def warm_values_cache_for_portfolio (portExists : Bool) (portMtime : ℚ)
    (holdings : List (Str × List Event)) (cacheExists : Str → Bool)
    (cacheMtime : Str → ℚ) (dirty0 : List Str) (computeOK : Str → Bool) : WarmResult :=
  let pm := if portExists then portMtime else 0
  holdings.foldl (warmStep pm dirty0 cacheExists cacheMtime computeOK) ⟨0, dirty0, []⟩


/-! ## Market Data Gateway (src/market_data.py) -/

/-- market_data._with_retries (lines 19-28): calls is the outcome of the
i-th invocation of the wrapped function; returns the final result together
with the list of backoff sleeps performed (base_delay * 2 ^ i after each
failed attempt, the last included). -/
def withRetriesAux {α : Type} (calls : Nat → Except Unit α) (baseDelay : ℚ) (i : Nat) :
    Nat → Option α × List ℚ
  | 0 => (none, [])
  | rem + 1 =>
    match calls i with
    | Except.ok v => (some v, [])
    | Except.error _ =>
      let r := withRetriesAux calls baseDelay (i + 1) rem
      (r.1, baseDelay * 2 ^ i :: r.2)

/-- market_data._with_retries with its attempt counter started at 0. -/
def withRetries {α : Type} (calls : Nat → Except Unit α) (attempts : Nat) (baseDelay : ℚ) :
    Option α × List ℚ :=
  withRetriesAux calls baseDelay 0 attempts

/-- The no-cache tail of fetch_price_history (lines 106-115): cache-only
mode returns empty, otherwise the API is retried and a final failure is
surfaced as an empty frame. -/
def fetchPriceFallback (avoidNetwork : Bool) (apiCalls : Nat → Except Unit (List (Nat × ℚ))) :
    List (Nat × ℚ) × List ℚ :=
  if avoidNetwork then ([], [])
  else
    match withRetries apiCalls 3 2 with
    | (none, ds) => ([], ds)
    | (some res, ds) => (res, ds)

/-- market_data.fetch_price_history (lines 41-115): cached is the outcome of
the guarded _read_cache (none models both a missing cache and any parse
failure), apiCalls the outcomes of successive _call_api invocations.
Returns the frame and the backoff sleeps performed; the function is total:
no exception reaches the caller on this path. -/
def fetch_price_history (cached : Option (List (Nat × ℚ))) (avoidNetwork preferCache : Bool)
    (apiCalls : Nat → Except Unit (List (Nat × ℚ))) : List (Nat × ℚ) × List ℚ :=
  match (if preferCache then cached else none) with
  | some df => if df.isEmpty then fetchPriceFallback avoidNetwork apiCalls else (df, [])
  | none => fetchPriceFallback avoidNetwork apiCalls

/-- market_data.fetch_dividends (lines 118-133): divResult is the outcome of
the ticker.dividends accessor, which the source guards with no try/except
and no retry wrapper, so a raised exception propagates (Except.error).
A None or empty series yields an empty result; otherwise the series is
filtered to the requested window. -/
def fetch_dividends (divResult : Except Unit (Option (List (Nat × ℚ))))
    (startDate endDate : Nat) : Except Unit (List (Nat × ℚ)) :=
  match divResult with
  | Except.error e => Except.error e
  | Except.ok none => Except.ok []
  | Except.ok (some div) =>
    if div.isEmpty then Except.ok []
    else Except.ok (div.filter fun p => decide (startDate ≤ p.1) && decide (p.1 ≤ endDate))

/-! ## Lemmas: value-cache row characterization -/

theorem cumsumFrom_length (acc : ℚ) (l : List ℚ) : (cumsumFrom acc l).length = l.length := by
  induction l generalizing acc with
  | nil => rfl
  | cons x xs ih => simp [cumsumFrom, ih]

theorem cumsumFrom_getElem? (l : List ℚ) (acc : ℚ) (i : Nat) (h : i < l.length) :
    (cumsumFrom acc l)[i]? = some (acc + takeSum l i) := by
  induction l generalizing acc i with
  | nil => simp at h
  | cons x xs ih =>
    cases i with
    | zero => simp [cumsumFrom, takeSum]
    | succ j =>
      have hj : j < xs.length := by simpa using h
      simp [cumsumFrom, takeSum, List.take_succ_cons, ih (acc + x) j hj, add_assoc]

theorem takeSum_set (l : List ℚ) (p i : Nat) (v : ℚ) (hp : p < l.length) :
    takeSum (l.set p (l.getD p 0 + v)) i = takeSum l i + if p ≤ i then v else 0 := by
  induction l generalizing p i with
  | nil => simp at hp
  | cons x xs ih =>
    cases p with
    | zero =>
      simp only [List.getD_cons_zero, List.set_cons_zero, takeSum, List.take_succ_cons,
        List.sum_cons, Nat.zero_le, if_true]
      ring
    | succ q =>
      have hq : q < xs.length := by simpa using hp
      have hgd : (x :: xs).getD (q + 1) 0 = xs.getD q 0 := by simp [List.getD]
      cases i with
      | zero =>
        simp [takeSum, List.take_succ_cons, hgd]
      | succ j =>
        simp only [hgd, List.set_cons_succ, takeSum, List.take_succ_cons, List.sum_cons,
          Nat.succ_le_succ_iff]
        rw [show ((xs.set q (xs.getD q 0 + v)).take (j + 1)).sum = takeSum (xs.set q (xs.getD q 0 + v)) j from rfl,
          ih q j hq]
        simp [takeSum, add_assoc]

theorem applyEvent_length (dates : List Nat) (changes : List ℚ) (e : Event) :
    (applyEvent dates changes e).length = changes.length := by
  unfold applyEvent
  cases e.date with
  | none => rfl
  | some d => dsimp only; split <;> simp

theorem takeSum_applyEvent (dates : List Nat) (changes : List ℚ) (e : Event) (i : Nat)
    (hlen : changes.length = dates.length) :
    takeSum (applyEvent dates changes e) i
      = takeSum changes i + if contributes dates i e then signedDelta e else 0 := by
  unfold applyEvent contributes
  cases e.date with
  | none => simp
  | some d =>
    dsimp only
    by_cases hpos : alignPos dates d < changes.length
    · rw [if_pos hpos, takeSum_set _ _ _ _ hpos]
      have hlt : alignPos dates d < dates.length := hlen ▸ hpos
      by_cases hle : alignPos dates d ≤ i
      · simp [hle, hlt]
      · simp [hle]
    · rw [if_neg hpos]
      have hlt : ¬ alignPos dates d < dates.length := fun h => hpos (hlen ▸ h)
      simp [hlt]

theorem foldl_applyEvent_length (dates : List Nat) (evs : List Event) (changes : List ℚ) :
    (evs.foldl (applyEvent dates) changes).length = changes.length := by
  induction evs generalizing changes with
  | nil => rfl
  | cons e evs ih => simp [List.foldl_cons, ih, applyEvent_length]

theorem takeSum_foldl_applyEvent (dates : List Nat) (evs : List Event) (changes : List ℚ)
    (i : Nat) (hlen : changes.length = dates.length) :
    takeSum (evs.foldl (applyEvent dates) changes) i
      = takeSum changes i + ((evs.filter (contributes dates i)).map signedDelta).sum := by
  induction evs generalizing changes with
  | nil => simp
  | cons e evs ih =>
    rw [List.foldl_cons, ih _ ((applyEvent_length dates changes e).trans hlen),
      takeSum_applyEvent dates changes e i hlen]
    by_cases hc : contributes dates i e
    · simp [List.filter_cons, hc]
      ring
    · simp [List.filter_cons, hc]

theorem buildChanges_length (dates : List Nat) (events : List Event) :
    (buildChanges dates events).length = dates.length := by
  unfold buildChanges
  rw [foldl_applyEvent_length, List.length_replicate]

theorem computeRows_length (prices : List (Nat × ℚ)) (events : List Event) :
    (computeRows prices events).length = prices.length := by
  unfold computeRows
  simp [cumsumFrom_length, buildChanges_length]

theorem takeSum_replicate_zero (n i : Nat) : takeSum (List.replicate n (0:ℚ)) i = 0 := by
  simp [takeSum, List.take_replicate]

/-- The i-th written row, characterized without any sortedness assumption:
its shares entry is the sum of the deltas of the events that align at
position at most i, taken over the events in storage order. -/
theorem computeRows_getElem? (prices : List (Nat × ℚ)) (events : List Event) (i : Nat)
    (pr : Nat × ℚ) (hpr : prices[i]? = some pr) :
    (computeRows prices events)[i]?
      = some ⟨pr.1,
          ((events.filter (contributes (prices.map Prod.fst) i)).map signedDelta).sum,
          ((events.filter (contributes (prices.map Prod.fst) i)).map signedDelta).sum * pr.2⟩ := by
  have hi : i < prices.length := (List.getElem?_eq_some.mp hpr).1
  have hch : (buildChanges (prices.map Prod.fst) events).length
      = (prices.map Prod.fst).length := buildChanges_length _ _
  have hlen2 : i < (buildChanges (prices.map Prod.fst) events).length := by
    simpa [hch] using hi
  have hperm : List.Perm (sortEventsByDate events) events :=
    List.perm_insertionSort eventDateLE events
  have hsum : (((sortEventsByDate events).filter
        (contributes (prices.map Prod.fst) i)).map signedDelta).sum
      = ((events.filter (contributes (prices.map Prod.fst) i)).map signedDelta).sum :=
    ((hperm.filter _).map _).sum_eq
  have hsh : (cumsumFrom 0 (buildChanges (prices.map Prod.fst) events))[i]?
      = some (((events.filter (contributes (prices.map Prod.fst) i)).map signedDelta).sum) := by
    rw [cumsumFrom_getElem? _ 0 i hlen2]
    unfold buildChanges
    rw [takeSum_foldl_applyEvent _ _ _ i (by simp), takeSum_replicate_zero, hsum]
    simp
  have hzip : (prices.zip (cumsumFrom 0 (buildChanges (prices.map Prod.fst) events)))[i]?
      = some (pr, ((events.filter (contributes (prices.map Prod.fst) i)).map signedDelta).sum) := by
    rw [List.getElem?_zip_eq_some]
    exact ⟨hpr, hsh⟩
  show ((prices.zip (cumsumFrom 0 (buildChanges (prices.map Prod.fst) events))).map
      (fun pr => ValueRow.mk pr.1.1 pr.2 (pr.2 * pr.1.2)))[i]? = _
  rw [List.getElem?_map, hzip]
  rfl

theorem alignPos_spec (dates : List Nat) (hs : List.Pairwise (· < ·) dates) (d : Nat)
    (i : Nat) (hi : i < dates.length) :
    (alignPos dates d ≤ i ∧ alignPos dates d < dates.length) ↔ d ≤ dates[i] := by
  constructor
  · rintro ⟨h1, h2⟩
    have hp : d ≤ dates[alignPos dates d] := by
      have := List.findIdx_getElem (p := fun x => d ≤ x) (w := h2)
      simpa [alignPos] using this
    rcases Nat.lt_or_ge (alignPos dates d) i with hlt | hge
    · have hmono : dates[alignPos dates d] < dates[i] := by
        rw [List.pairwise_iff_get] at hs
        have := hs ⟨alignPos dates d, h2⟩ ⟨i, hi⟩ hlt
        simpa [List.get_eq_getElem] using this
      exact le_of_lt (lt_of_le_of_lt hp hmono)
    · have heq : alignPos dates d = i := Nat.le_antisymm h1 hge
      simpa [heq] using hp
  · intro hd
    have hmem : dates[i] ∈ dates := List.getElem_mem hi
    have h2 : alignPos dates d < dates.length :=
      List.findIdx_lt_length_of_exists ⟨dates[i], hmem, by simpa using hd⟩
    refine ⟨?_, h2⟩
    by_contra hgt
    push_neg at hgt
    have hgt2 : i < dates.findIdx (fun x => d ≤ x) := hgt
    have := List.not_of_lt_findIdx (p := fun x => d ≤ x) hgt2
    simp at this
    omega

theorem contributes_eq_dateLE (dates : List Nat) (hs : List.Pairwise (· < ·) dates)
    (i : Nat) (hi : i < dates.length) (e : Event) :
    contributes dates i e = dateLE (dates[i]) e := by
  unfold contributes dateLE
  cases e.date with
  | none => rfl
  | some d =>
    dsimp only
    rcases Decidable.em (d ≤ dates[i]) with h | h
    · have hc := (alignPos_spec dates hs d i hi).mpr h
      simp [hc.1, hc.2, h]
    · have hc : ¬ (alignPos dates d ≤ i ∧ alignPos dates d < dates.length) :=
        fun hcc => h ((alignPos_spec dates hs d i hi).mp hcc)
      rcases Decidable.em (alignPos dates d ≤ i) with h1 | h1
      · have h2 : ¬ alignPos dates d < dates.length := fun h2 => hc ⟨h1, h2⟩
        simp [h1, h2, h]
      · simp [h1, h]

/-- Rows under a sorted price index: shares at a row equal the sum of signed
deltas of events dated at or before that row's date. -/
theorem computeRows_getElem?_sorted (prices : List (Nat × ℚ)) (events : List Event)
    (hs : List.Pairwise (· < ·) (prices.map Prod.fst)) (i : Nat)
    (pr : Nat × ℚ) (hpr : prices[i]? = some pr) :
    (computeRows prices events)[i]?
      = some ⟨pr.1, sumDeltasUpTo events pr.1, sumDeltasUpTo events pr.1 * pr.2⟩ := by
  have hi : i < prices.length := (List.getElem?_eq_some.mp hpr).1
  have hi' : i < (prices.map Prod.fst).length := by simpa using hi
  have hdi : (prices.map Prod.fst)[i] = pr.1 := by
    have hx : (prices.map Prod.fst)[i]? = some pr.1 := by
      rw [List.getElem?_map, hpr]; rfl
    simpa [List.getElem?_eq_getElem hi'] using hx
  have hfc : events.filter (contributes (prices.map Prod.fst) i)
      = events.filter (dateLE pr.1) := by
    apply List.filter_congr
    intro e _
    rw [contributes_eq_dateLE _ hs i hi' e, hdi]
  rw [computeRows_getElem? prices events i pr hpr, hfc]
  rfl

theorem computeRows_perm (prices : List (Nat × ℚ)) {events events' : List Event}
    (hp : List.Perm events' events) :
    computeRows prices events' = computeRows prices events := by
  apply List.ext_getElem?
  intro i
  rcases hpr : prices[i]? with _ | pr
  · have hi : prices.length ≤ i := by
      simpa [List.getElem?_eq_none_iff] using hpr
    rw [List.getElem?_eq_none, List.getElem?_eq_none] <;>
      simp [computeRows_length, hi]
  · rw [computeRows_getElem? prices events' i pr hpr,
      computeRows_getElem? prices events i pr hpr]
    have hsum : ((events'.filter (contributes (prices.map Prod.fst) i)).map signedDelta).sum
        = ((events.filter (contributes (prices.map Prod.fst) i)).map signedDelta).sum :=
      ((hp.filter _).map _).sum_eq
    rw [hsum]

/-- C1: for every holding and sorted price series, each row written by
compute_and_write_values_for_holding carries shares equal to the sum of
signed share deltas (purchase +, sale -, others 0) over events dated at or
before the row date, and value = shares * price on that date; the result is
independent of the events' storage order; and the AAPL example evaluates to
the expected three rows. -/
theorem values_rows_correct (prices : List (Nat × ℚ)) (events : List Event)
    (hs : List.Pairwise (· < ·) (prices.map Prod.fst)) :
    (∀ (i : Nat) (pr : Nat × ℚ), prices[i]? = some pr →
        (computeRows prices events)[i]?
          = some ⟨pr.1, sumDeltasUpTo events pr.1, sumDeltasUpTo events pr.1 * pr.2⟩)
    ∧ (∀ events' : List Event, List.Perm events' events →
        computeRows prices events' = computeRows prices events)
    ∧ computeRows [(20240102, 100), (20240601, 150), (20240603, 160)]
        [⟨some 20240102, EventType.purchase, 10, 100, 0, []⟩,
         ⟨some 20240601, EventType.purchase, 5, 150, 0, []⟩]
        = [⟨20240102, 10, 1000⟩, ⟨20240601, 15, 2250⟩, ⟨20240603, 15, 2400⟩] := by
  refine ⟨fun i pr hpr => computeRows_getElem?_sorted prices events hs i pr hpr,
    fun events' hp => computeRows_perm prices hp, ?_⟩
  norm_num [computeRows, buildChanges, sortEventsByDate, List.insertionSort,
    List.orderedInsert, eventDateLE, dateKey, applyEvent, alignPos, List.findIdx,
    List.findIdx.go, signedDelta, cumsumFrom, List.set, List.getD]

/-- Witness for C1: row 1 of the AAPL example, via the theorem. -/
theorem values_rows_correct_witness :
    (computeRows [(20240102, 100), (20240601, 150), (20240603, 160)]
        [⟨some 20240102, EventType.purchase, 10, 100, 0, []⟩,
         ⟨some 20240601, EventType.purchase, 5, 150, 0, []⟩])[1]?
      = some ⟨20240601,
          sumDeltasUpTo [⟨some 20240102, EventType.purchase, 10, 100, 0, []⟩,
            ⟨some 20240601, EventType.purchase, 5, 150, 0, []⟩] 20240601,
          sumDeltasUpTo [⟨some 20240102, EventType.purchase, 10, 100, 0, []⟩,
            ⟨some 20240601, EventType.purchase, 5, 150, 0, []⟩] 20240601 * 150⟩ :=
  (values_rows_correct _ _ (by decide)).1 1 (20240601, 150) (by decide)

/-- C10: an event with no valid date, or dated strictly after every date of
the fetched price series, contributes to no ValueRow: dropping it leaves the
computed rows (final cached shares included) unchanged. -/
theorem late_event_contributes_nothing (prices : List (Nat × ℚ)) (events : List Event)
    (e : Event) (hlate : ∀ d, e.date = some d → ∀ x ∈ prices.map Prod.fst, x < d) :
    computeRows prices (e :: events) = computeRows prices events := by
  apply List.ext_getElem?
  intro i
  rcases hpr : prices[i]? with _ | pr
  · have hi : prices.length ≤ i := by
      simpa [List.getElem?_eq_none_iff] using hpr
    rw [List.getElem?_eq_none, List.getElem?_eq_none] <;>
      simp [computeRows_length, hi]
  · rw [computeRows_getElem? prices (e :: events) i pr hpr,
      computeRows_getElem? prices events i pr hpr]
    have hcf : contributes (prices.map Prod.fst) i e = false := by
      unfold contributes
      cases hd : e.date with
      | none => rfl
      | some d =>
        dsimp only
        have hnl : ¬ alignPos (prices.map Prod.fst) d < (prices.map Prod.fst).length := by
          intro hlt
          have hp : d ≤ (prices.map Prod.fst)[alignPos (prices.map Prod.fst) d] := by
            have := List.findIdx_getElem (p := fun x => d ≤ x) (w := hlt)
            simpa [alignPos] using this
          have hmem := List.getElem_mem hlt
          exact absurd hp (not_le.mpr (hlate d hd _ hmem))
        have hnl2 : prices.length ≤ alignPos (List.map Prod.fst prices) d := by
          simpa using Nat.le_of_not_lt hnl
        have hdec : decide (alignPos (List.map Prod.fst prices) d
            < (List.map Prod.fst prices).length) = false := by simpa using hnl2
        simp [hdec, hnl2]
    rw [List.filter_cons_of_neg (by simp [hcf])]

/-- Witness for C10: an event dated past the last price date is dropped. -/
theorem late_event_contributes_nothing_witness :
    computeRows [(10, 5)]
        [⟨some 30, EventType.purchase, 7, 1, 0, []⟩,
         ⟨some 10, EventType.purchase, 2, 5, 0, []⟩]
      = computeRows [(10, 5)] [⟨some 10, EventType.purchase, 2, 5, 0, []⟩] :=
  late_event_contributes_nothing [(10, 5)] _ _
    (by
      intro d hd x hx
      simp at hd hx
      omega)

/-- C7: when the fetched price series is missing or empty,
compute_and_write_values_for_holding persists an empty (header-only) series
and reports failure; the modeled function is total, so no exception is
raised on this path. -/
theorem empty_prices_empty_series (fetched : Option (List (Nat × ℚ)))
    (events : List Event) (h : fetched = none ∨ fetched = some []) :
    compute_and_write_values_for_holding fetched events = ([], false) := by
  rcases h with h | h <;> subst h <;> rfl

/-- Witness for C7 at a concrete missing series. -/
theorem empty_prices_empty_series_witness :
    compute_and_write_values_for_holding none
        [⟨some 10, EventType.purchase, 2, 5, 0, []⟩] = ([], false) :=
  empty_prices_empty_series none _ (Or.inl rfl)

/-! ## Lemmas: owned-shares characterization -/

theorem sumDeltasUpTo_nil (t : Nat) : sumDeltasUpTo [] t = 0 := rfl

theorem sharesUpTo_sorted (t : Nat) : ∀ (l : List Event), List.Sorted eventDateLE l →
    sharesUpTo t l = sumDeltasUpTo l t := by
  intro l
  induction l with
  | nil => intro _; rfl
  | cons e rest ih =>
    intro hs
    rw [List.sorted_cons] at hs
    obtain ⟨hhead, htail⟩ := hs
    cases hd : e.date with
    | none =>
      have h1 : sharesUpTo t (e :: rest) = sharesUpTo t rest := by
        simp [sharesUpTo, hd]
      have h2 : dateLE t e = false := by unfold dateLE; rw [hd]
      rw [h1, ih htail]
      unfold sumDeltasUpTo
      rw [List.filter_cons_of_neg (by simp [h2])]
    | some d =>
      by_cases hlt : t < d
      · have h1 : sharesUpTo t (e :: rest) = 0 := by
          unfold sharesUpTo; rw [hd]; simp [hlt]
        have h2 : dateLE t e = false := by
          unfold dateLE; rw [hd]; simpa using Nat.not_le_of_lt hlt
        have h3 : rest.filter (dateLE t) = [] := by
          rw [List.filter_eq_nil_iff]
          intro x hx
          have hkey : dateKey e.date ≤ dateKey x.date := hhead x hx
          rw [hd] at hkey
          cases hxd : x.date with
          | none => simp [dateLE, hxd]
          | some d2 =>
            rw [hxd] at hkey
            simp only [dateKey] at hkey
            have : t < d2 := lt_of_lt_of_le hlt (Nat.succ_le_succ_iff.mp hkey)
            simp [dateLE, hxd]
            omega
        rw [h1]
        unfold sumDeltasUpTo
        rw [List.filter_cons_of_neg (by simp [h2]), h3]
        rfl
      · have h1 : sharesUpTo t (e :: rest) = signedDelta e + sharesUpTo t rest := by
          simp only [sharesUpTo, hd]
          rw [if_neg hlt]
        have h2 : dateLE t e = true := by
          unfold dateLE; rw [hd]; simpa using Nat.le_of_not_lt hlt
        rw [h1, ih htail]
        unfold sumDeltasUpTo
        rw [List.filter_cons_of_pos (by simp [h2])]
        simp

theorem sumDeltasUpTo_perm {l l' : List Event} (h : List.Perm l' l) (t : Nat) :
    sumDeltasUpTo l' t = sumDeltasUpTo l t := ((h.filter _).map _).sum_eq

theorem compute_owned_eq (events : List Event) (target : Nat) :
    compute_owned_shares_on_date events target = max (sumDeltasUpTo events target) 0 := by
  unfold compute_owned_shares_on_date sortEventsByDate
  rw [sharesUpTo_sorted target _ (List.sorted_insertionSort eventDateLE events),
    sumDeltasUpTo_perm (List.perm_insertionSort eventDateLE events) target]

theorem ingestStep_skip (symbol : Str) (reinvest : Bool) (priceOn : Nat → Option ℚ)
    (sc : IngestState × Nat) (p : Nat × ℚ)
    (h : compute_owned_shares_on_date sc.1.holdingEvents p.1 ≤ 0
         ∨ p.2 * compute_owned_shares_on_date sc.1.holdingEvents p.1 = 0) :
    ingestStep symbol reinvest priceOn sc p = sc := by
  unfold ingestStep
  by_cases h0 : compute_owned_shares_on_date sc.1.holdingEvents p.1 ≤ 0
  · simp [h0]
  · have hc : p.2 * compute_owned_shares_on_date sc.1.holdingEvents p.1 = 0 :=
      h.resolve_left h0
    simp [h0, hc]

/-- C3: compute_owned_shares_on_date returns the clamped (at 0) sum of
signed share deltas over events dated at or before the target, independent
of the events' storage order; and an ex-date with owned shares at most 0 or
zero cash amount is skipped by the ingestion loop without adding events or
counting a change. -/
theorem owned_shares_correct (events : List Event) (target : Nat) :
    compute_owned_shares_on_date events target = max (sumDeltasUpTo events target) 0
    ∧ (∀ events' : List Event, List.Perm events' events →
        compute_owned_shares_on_date events' target
          = compute_owned_shares_on_date events target)
    ∧ (∀ (symbol : Str) (reinvest : Bool) (priceOn : Nat → Option ℚ)
        (sc : IngestState × Nat) (p : Nat × ℚ),
        (compute_owned_shares_on_date sc.1.holdingEvents p.1 ≤ 0
         ∨ p.2 * compute_owned_shares_on_date sc.1.holdingEvents p.1 = 0) →
        ingestStep symbol reinvest priceOn sc p = sc) := by
  refine ⟨compute_owned_eq events target, fun events' hp => ?_,
    fun symbol reinvest priceOn sc p h => ingestStep_skip symbol reinvest priceOn sc p h⟩
  rw [compute_owned_eq, compute_owned_eq, sumDeltasUpTo_perm hp]

/-- Witness for C3: a sale-only holding owns no shares on a later date, and
the ingestion loop skips that ex-date. -/
theorem owned_shares_correct_witness :
    compute_owned_shares_on_date [⟨some 5, EventType.sale, 3, 1, 0, []⟩] 6
      = max (sumDeltasUpTo [⟨some 5, EventType.sale, 3, 1, 0, []⟩] 6) 0
    ∧ ingestStep ['A'] true (fun _ => none)
        (⟨[⟨some 5, EventType.sale, 3, 1, 0, []⟩], []⟩, 0) (6, 1)
      = (⟨[⟨some 5, EventType.sale, 3, 1, 0, []⟩], []⟩, 0) :=
  ⟨(owned_shares_correct _ 6).1,
   (owned_shares_correct [] 0).2.2 ['A'] true (fun _ => none) _ (6, 1)
     (Or.inl (by
       norm_num [compute_owned_shares_on_date, sharesUpTo, sortEventsByDate,
         List.insertionSort, List.orderedInsert, signedDelta]))⟩

/-! ## Lemmas: ingestion step structure -/

theorem isPrefixOf_self (l : Str) : l.isPrefixOf l = true := by
  simp [List.isPrefixOf_iff_prefix]

theorem has_symbol_dividend_append (l ex : List Event) (symbol : Str) (d : Nat)
    (h : has_symbol_dividend_on_date l symbol d = true) :
    has_symbol_dividend_on_date (l ++ ex) symbol d = true := by
  unfold has_symbol_dividend_on_date at h ⊢
  rw [List.any_append, h, Bool.true_or]

theorem has_drip_purchase_append (l ex : List Event) (symbol : Str) (d : Nat)
    (h : has_drip_purchase_on_date l symbol d = true) :
    has_drip_purchase_on_date (l ++ ex) symbol d = true := by
  unfold has_drip_purchase_on_date at h ⊢
  rw [List.any_append, h, Bool.true_or]

theorem has_cash_dividend_append (l ex : List Event) (symbol : Str) (d : Nat)
    (h : has_cash_dividend_on_date l symbol d = true) :
    has_cash_dividend_on_date (l ++ ex) symbol d = true := by
  unfold has_cash_dividend_on_date at h ⊢
  rw [List.any_append, h, Bool.true_or]

theorem sumDeltasUpTo_append (l ex : List Event) (t : Nat) :
    sumDeltasUpTo (l ++ ex) t = sumDeltasUpTo l t + sumDeltasUpTo ex t := by
  unfold sumDeltasUpTo
  rw [List.filter_append, List.map_append, List.sum_append]

theorem sumDeltasUpTo_late (ex : List Event) (t : Nat)
    (h : ∀ e ∈ ex, ∀ d, e.date = some d → t < d) :
    sumDeltasUpTo ex t = 0 := by
  unfold sumDeltasUpTo
  rw [List.filter_eq_nil_iff.mpr ?hnil]
  · rfl
  case hnil =>
    intro e he
    unfold dateLE
    cases hd : e.date with
    | none => simp
    | some d =>
      have := h e he d hd
      simp
      omega

theorem compute_owned_append_late (l ex : List Event) (t : Nat)
    (h : ∀ e ∈ ex, ∀ d, e.date = some d → t < d) :
    compute_owned_shares_on_date (l ++ ex) t = compute_owned_shares_on_date l t := by
  rw [compute_owned_eq, compute_owned_eq, sumDeltasUpTo_append,
    sumDeltasUpTo_late ex t h, add_zero]

theorem divPhase_holding (symbol : Str) (d : Nat) (cash : ℚ) (sc : IngestState × Nat) :
    ∃ ex, (divPhase symbol d cash sc).1.holdingEvents = sc.1.holdingEvents ++ ex
      ∧ ∀ e ∈ ex, e.date = some d := by
  unfold divPhase
  split
  · exact ⟨[], by simp, by simp⟩
  · exact ⟨[mkDividendEvent symbol d cash], rfl, by simp [mkDividendEvent]⟩

theorem divPhase_cashEvents (symbol : Str) (d : Nat) (cash : ℚ) (sc : IngestState × Nat) :
    (divPhase symbol d cash sc).1.cashEvents = sc.1.cashEvents := by
  unfold divPhase
  split <;> rfl

theorem dripPhase_holding (symbol : Str) (d : Nat) (cash : ℚ) (priceOn : Nat → Option ℚ)
    (sc : IngestState × Nat) :
    ∃ ex, (dripPhase symbol d cash priceOn sc).1.holdingEvents = sc.1.holdingEvents ++ ex
      ∧ ∀ e ∈ ex, e.date = some d := by
  unfold dripPhase
  split
  · exact ⟨[], by simp, by simp⟩
  · rcases hpo : priceOn d with _ | q
    · exact ⟨[], by simp, by simp⟩
    · dsimp only
      split
      · exact ⟨[mkDripEvent symbol d cash q], rfl, by simp [mkDripEvent]⟩
      · exact ⟨[], by simp, by simp⟩

theorem dripPhase_cashEvents (symbol : Str) (d : Nat) (cash : ℚ) (priceOn : Nat → Option ℚ)
    (sc : IngestState × Nat) :
    (dripPhase symbol d cash priceOn sc).1.cashEvents = sc.1.cashEvents := by
  unfold dripPhase
  split
  · rfl
  · rcases hpo : priceOn d with _ | q
    · rfl
    · dsimp only
      split <;> rfl

theorem cashPhase_holding (symbol : Str) (d : Nat) (cash : ℚ) (sc : IngestState × Nat) :
    (cashPhase symbol d cash sc).1.holdingEvents = sc.1.holdingEvents := by
  unfold cashPhase
  split <;> rfl

theorem cashPhase_cashEvents (symbol : Str) (d : Nat) (cash : ℚ) (sc : IngestState × Nat) :
    ∃ ex, (cashPhase symbol d cash sc).1.cashEvents = sc.1.cashEvents ++ ex
      ∧ ∀ e ∈ ex, e.date = some d := by
  unfold cashPhase
  split
  · exact ⟨[], by simp, by simp⟩
  · exact ⟨[mkDividendEvent symbol d cash], rfl, by simp [mkDividendEvent]⟩

theorem divPhase_marker (symbol : Str) (d : Nat) (cash : ℚ) (sc : IngestState × Nat) :
    has_symbol_dividend_on_date (divPhase symbol d cash sc).1.holdingEvents symbol d = true := by
  unfold divPhase
  split
  case isTrue h => exact h
  case isFalse h =>
    unfold has_symbol_dividend_on_date
    rw [List.any_append]
    have : (fun e => decide (e.type = EventType.dividend) && decide (e.date = some d)
        && (divNote symbol).isPrefixOf e.note) (mkDividendEvent symbol d cash) = true := by
      simp [mkDividendEvent, isPrefixOf_self]
    simp [this]

theorem dripPhase_marker (symbol : Str) (d : Nat) (cash : ℚ) (priceOn : Nat → Option ℚ)
    (sc : IngestState × Nat) :
    has_drip_purchase_on_date (dripPhase symbol d cash priceOn sc).1.holdingEvents symbol d = true
    ∨ ¬ goodPrice priceOn d := by
  by_cases h : has_drip_purchase_on_date sc.1.holdingEvents symbol d
  · left
    unfold dripPhase
    rw [if_pos h]
    exact h
  · rcases hpo : priceOn d with _ | q
    · right
      rintro ⟨q2, hq2, _⟩
      rw [hpo] at hq2
      cases hq2
    · by_cases hq : 0 < q
      · left
        unfold dripPhase
        rw [if_neg h, hpo]
        dsimp only
        rw [if_pos hq]
        unfold has_drip_purchase_on_date
        rw [List.any_append]
        have : (fun e => decide (e.type = EventType.purchase) && decide (e.date = some d)
            && (dripNote symbol).isPrefixOf e.note) (mkDripEvent symbol d cash q) = true := by
          simp [mkDripEvent, isPrefixOf_self]
        simp [this]
      · right
        rintro ⟨q2, hq2, hq2pos⟩
        rw [hpo] at hq2
        cases hq2
        exact hq hq2pos

theorem cashPhase_marker (symbol : Str) (d : Nat) (cash : ℚ) (sc : IngestState × Nat) :
    has_cash_dividend_on_date (cashPhase symbol d cash sc).1.cashEvents symbol d = true := by
  unfold cashPhase
  split
  case isTrue h => exact h
  case isFalse h =>
    unfold has_cash_dividend_on_date
    rw [List.any_append]
    have : (fun e => decide (e.type = EventType.dividend) && decide (e.date = some d)
        && (divNote symbol).isPrefixOf e.note) (mkDividendEvent symbol d cash) = true := by
      simp [mkDividendEvent, isPrefixOf_self]
    simp [this]

theorem divPhase_id (symbol : Str) (d : Nat) (cash : ℚ) (sc : IngestState × Nat)
    (h : has_symbol_dividend_on_date sc.1.holdingEvents symbol d = true) :
    divPhase symbol d cash sc = sc := by
  unfold divPhase
  rw [if_pos h]

theorem dripPhase_id (symbol : Str) (d : Nat) (cash : ℚ) (priceOn : Nat → Option ℚ)
    (sc : IngestState × Nat)
    (h : has_drip_purchase_on_date sc.1.holdingEvents symbol d = true ∨ ¬ goodPrice priceOn d) :
    dripPhase symbol d cash priceOn sc = sc := by
  unfold dripPhase
  by_cases hm : has_drip_purchase_on_date sc.1.holdingEvents symbol d
  · rw [if_pos hm]
  · rw [if_neg hm]
    have hbad : ¬ goodPrice priceOn d := h.resolve_left hm
    rcases hpo : priceOn d with _ | q
    · rfl
    · dsimp only
      rw [if_neg (fun hq => hbad ⟨q, hpo, hq⟩)]

theorem cashPhase_id (symbol : Str) (d : Nat) (cash : ℚ) (sc : IngestState × Nat)
    (h : has_cash_dividend_on_date sc.1.cashEvents symbol d = true) :
    cashPhase symbol d cash sc = sc := by
  unfold cashPhase
  rw [if_pos h]

theorem ingestStep_append (symbol : Str) (reinvest : Bool) (priceOn : Nat → Option ℚ)
    (sc : IngestState × Nat) (p : Nat × ℚ) :
    ∃ ex1 ex2,
      (ingestStep symbol reinvest priceOn sc p).1.holdingEvents = sc.1.holdingEvents ++ ex1
      ∧ (ingestStep symbol reinvest priceOn sc p).1.cashEvents = sc.1.cashEvents ++ ex2
      ∧ (∀ e ∈ ex1, e.date = some p.1) ∧ (∀ e ∈ ex2, e.date = some p.1) := by
  unfold ingestStep
  dsimp only
  by_cases h0 : compute_owned_shares_on_date sc.1.holdingEvents p.1 ≤ 0
  · rw [if_pos h0]; exact ⟨[], [], by simp, by simp, by simp, by simp⟩
  · rw [if_neg h0]
    by_cases hc : p.2 * compute_owned_shares_on_date sc.1.holdingEvents p.1 = 0
    · rw [if_pos hc]; exact ⟨[], [], by simp, by simp, by simp, by simp⟩
    · rw [if_neg hc]
      obtain ⟨d1, hd1, hd1d⟩ := divPhase_holding symbol p.1
        (p.2 * compute_owned_shares_on_date sc.1.holdingEvents p.1) sc
      have hdc := divPhase_cashEvents symbol p.1
        (p.2 * compute_owned_shares_on_date sc.1.holdingEvents p.1) sc
      cases reinvest with
      | true =>
        rw [if_pos rfl]
        obtain ⟨r1, hr1, hr1d⟩ := dripPhase_holding symbol p.1
          (p.2 * compute_owned_shares_on_date sc.1.holdingEvents p.1) priceOn
          (divPhase symbol p.1 (p.2 * compute_owned_shares_on_date sc.1.holdingEvents p.1) sc)
        have hrc := dripPhase_cashEvents symbol p.1
          (p.2 * compute_owned_shares_on_date sc.1.holdingEvents p.1) priceOn
          (divPhase symbol p.1 (p.2 * compute_owned_shares_on_date sc.1.holdingEvents p.1) sc)
        refine ⟨d1 ++ r1, [], ?_, ?_, ?_, by simp⟩
        · rw [hr1, hd1, List.append_assoc]
        · rw [hrc, hdc]; simp
        · intro e he
          rcases List.mem_append.mp he with h | h
          exacts [hd1d e h, hr1d e h]
      | false =>
        rw [if_neg (by simp)]
        obtain ⟨c2, hc2, hc2d⟩ := cashPhase_cashEvents symbol p.1
          (p.2 * compute_owned_shares_on_date sc.1.holdingEvents p.1)
          (divPhase symbol p.1 (p.2 * compute_owned_shares_on_date sc.1.holdingEvents p.1) sc)
        have hch := cashPhase_holding symbol p.1
          (p.2 * compute_owned_shares_on_date sc.1.holdingEvents p.1)
          (divPhase symbol p.1 (p.2 * compute_owned_shares_on_date sc.1.holdingEvents p.1) sc)
        refine ⟨d1, c2, ?_, ?_, hd1d, hc2d⟩
        · rw [hch, hd1]
        · rw [hc2, hdc]

theorem ingestStep_establishes (symbol : Str) (reinvest : Bool) (priceOn : Nat → Option ℚ)
    (sc : IngestState × Nat) (p : Nat × ℚ)
    (h0 : ¬ compute_owned_shares_on_date sc.1.holdingEvents p.1 ≤ 0)
    (hc : ¬ p.2 * compute_owned_shares_on_date sc.1.holdingEvents p.1 = 0) :
    has_symbol_dividend_on_date
      (ingestStep symbol reinvest priceOn sc p).1.holdingEvents symbol p.1 = true
    ∧ (reinvest = true →
        has_drip_purchase_on_date
          (ingestStep symbol reinvest priceOn sc p).1.holdingEvents symbol p.1 = true
        ∨ ¬ goodPrice priceOn p.1)
    ∧ (reinvest = false →
        has_cash_dividend_on_date
          (ingestStep symbol reinvest priceOn sc p).1.cashEvents symbol p.1 = true) := by
  unfold ingestStep
  dsimp only
  rw [if_neg h0, if_neg hc]
  cases reinvest with
  | true =>
    rw [if_pos rfl]
    refine ⟨?_, fun _ => ?_, fun hf => Bool.noConfusion hf⟩
    · obtain ⟨r1, hr1, _⟩ := dripPhase_holding symbol p.1
        (p.2 * compute_owned_shares_on_date sc.1.holdingEvents p.1) priceOn
        (divPhase symbol p.1 (p.2 * compute_owned_shares_on_date sc.1.holdingEvents p.1) sc)
      rw [hr1]
      exact has_symbol_dividend_append _ _ _ _ (divPhase_marker symbol p.1 _ sc)
    · exact dripPhase_marker symbol p.1 _ priceOn
        (divPhase symbol p.1 (p.2 * compute_owned_shares_on_date sc.1.holdingEvents p.1) sc)
  | false =>
    rw [if_neg (by simp)]
    refine ⟨?_, fun ht => Bool.noConfusion ht, fun _ => ?_⟩
    · rw [cashPhase_holding]
      exact divPhase_marker symbol p.1 _ sc
    · exact cashPhase_marker symbol p.1 _
        (divPhase symbol p.1 (p.2 * compute_owned_shares_on_date sc.1.holdingEvents p.1) sc)

theorem ingestStep_settled (symbol : Str) (reinvest : Bool) (priceOn : Nat → Option ℚ)
    (s : IngestState) (p : Nat × ℚ)
    (hset : Settled symbol reinvest priceOn s p) (c : Nat) :
    ingestStep symbol reinvest priceOn (s, c) p = (s, c) := by
  by_cases h0 : compute_owned_shares_on_date s.holdingEvents p.1 ≤ 0
  · exact ingestStep_skip _ _ _ _ _ (Or.inl h0)
  · by_cases hc : p.2 * compute_owned_shares_on_date s.holdingEvents p.1 = 0
    · exact ingestStep_skip _ _ _ _ _ (Or.inr hc)
    · have h3 := (hset.resolve_left h0).resolve_left
        (fun hp2 => hc (by rw [hp2, zero_mul]))
      obtain ⟨hdiv, hdrip, hcash⟩ := h3
      unfold ingestStep
      dsimp only
      rw [if_neg h0, if_neg hc, divPhase_id _ _ _ _ hdiv]
      cases reinvest with
      | true =>
        rw [if_pos rfl]
        exact dripPhase_id _ _ _ _ _ (hdrip rfl)
      | false =>
        rw [if_neg (by simp)]
        exact cashPhase_id _ _ _ _ (hcash rfl)

theorem ingest_fold_append (symbol : Str) (reinvest : Bool) (priceOn : Nat → Option ℚ)
    (series : List (Nat × ℚ)) :
    ∀ sc : IngestState × Nat,
      ∃ ex1 ex2,
        (series.foldl (ingestStep symbol reinvest priceOn) sc).1.holdingEvents
          = sc.1.holdingEvents ++ ex1
        ∧ (series.foldl (ingestStep symbol reinvest priceOn) sc).1.cashEvents
          = sc.1.cashEvents ++ ex2
        ∧ (∀ e ∈ ex1 ++ ex2, ∃ d, d ∈ series.map Prod.fst ∧ e.date = some d) := by
  induction series with
  | nil => exact fun sc => ⟨[], [], by simp, by simp, by simp⟩
  | cons q rest ih =>
    intro sc
    obtain ⟨a1, a2, ha1, ha2, hadh, hadc⟩ := ingestStep_append symbol reinvest priceOn sc q
    obtain ⟨b1, b2, hb1, hb2, hbd⟩ := ih (ingestStep symbol reinvest priceOn sc q)
    refine ⟨a1 ++ b1, a2 ++ b2, ?_, ?_, ?_⟩
    · rw [List.foldl_cons, hb1, ha1, List.append_assoc]
    · rw [List.foldl_cons, hb2, ha2, List.append_assoc]
    · intro e he
      rcases List.mem_append.mp he with h | h
      · rcases List.mem_append.mp h with h' | h'
        · exact ⟨q.1, by simp, hadh e h'⟩
        · obtain ⟨d, hdm, hde⟩ := hbd e (List.mem_append_left b2 h')
          exact ⟨d, by simp [hdm], hde⟩
      · rcases List.mem_append.mp h with h' | h'
        · exact ⟨q.1, by simp, hadc e h'⟩
        · obtain ⟨d, hdm, hde⟩ := hbd e (List.mem_append_right b1 h')
          exact ⟨d, by simp [hdm], hde⟩

theorem ingest_fold_settled (symbol : Str) (reinvest : Bool) (priceOn : Nat → Option ℚ)
    (series : List (Nat × ℚ)) (s : IngestState) (c : Nat)
    (h : ∀ p ∈ series, Settled symbol reinvest priceOn s p) :
    series.foldl (ingestStep symbol reinvest priceOn) (s, c) = (s, c) := by
  revert h
  induction series with
  | nil => intro _; rfl
  | cons q rest ih =>
    intro h
    rw [List.foldl_cons, ingestStep_settled symbol reinvest priceOn s q
      (h q (List.mem_cons_self q rest)) c]
    exact ih (fun p hp => h p (List.mem_cons_of_mem q hp))

/-- After one ingestion pass over a strictly date-sorted series, every entry
of the series is settled in the resulting state: a second pass can add
nothing at it. -/
theorem ingest_fold_settles_all (symbol : Str) (reinvest : Bool)
    (priceOn : Nat → Option ℚ) :
    ∀ series : List (Nat × ℚ), List.Pairwise (· < ·) (series.map Prod.fst) →
    ∀ (s0 : IngestState) (c : Nat) (p : Nat × ℚ), p ∈ series →
      Settled symbol reinvest priceOn
        ((series.foldl (ingestStep symbol reinvest priceOn) (s0, c)).1) p := by
  intro series
  induction series with
  | nil => intro _ s0 c p hp; cases hp
  | cons q rest ih =>
    intro hs s0 c p hp
    have hs' : List.Pairwise (· < ·) (rest.map Prod.fst) := by
      simpa using (List.pairwise_cons.mp (by simpa using hs)).2
    have hhead : ∀ y ∈ rest.map Prod.fst, q.1 < y :=
      (List.pairwise_cons.mp (by simpa using hs)).1
    rw [List.foldl_cons]
    rcases List.mem_cons.mp hp with rfl | hp
    · -- p is the head q
      by_cases h0 : compute_owned_shares_on_date s0.holdingEvents p.1 ≤ 0
      · have hid : ingestStep symbol reinvest priceOn (s0, c) p = (s0, c) :=
          ingestStep_skip _ _ _ _ _ (Or.inl h0)
        rw [hid]
        obtain ⟨ex1, ex2, he1, he2, hed⟩ :=
          ingest_fold_append symbol reinvest priceOn rest (s0, c)
        left
        rw [he1]
        rw [compute_owned_append_late s0.holdingEvents ex1 p.1 ?hlate]
        · exact h0
        case hlate =>
          intro e he d hde
          obtain ⟨d2, hd2m, hd2e⟩ := hed e (List.mem_append_left ex2 he)
          rw [hde] at hd2e
          cases hd2e
          exact hhead d hd2m
      · by_cases hq2 : p.2 = 0
        · exact Or.inr (Or.inl hq2)
        · have hc : ¬ p.2 * compute_owned_shares_on_date s0.holdingEvents p.1 = 0 :=
            mul_ne_zero hq2 (fun hz => h0 (le_of_eq hz))
        
          obtain ⟨hdiv, hdrip, hcash⟩ :=
            ingestStep_establishes symbol reinvest priceOn (s0, c) p h0 hc
          obtain ⟨ex1, ex2, he1, he2, hed⟩ :=
            ingest_fold_append symbol reinvest priceOn rest
              (ingestStep symbol reinvest priceOn (s0, c) p)
          right; right
          refine ⟨?_, ?_, ?_⟩
          · rw [he1]
            exact has_symbol_dividend_append _ _ _ _ hdiv
          · intro hrv
            rcases hdrip hrv with hm | hbad
            · left
              rw [he1]
              exact has_drip_purchase_append _ _ _ _ hm
            · exact Or.inr hbad
          · intro hrv
            rw [he2]
            exact has_cash_dividend_append _ _ _ _ (hcash hrv)
    · -- p is in the tail
      exact ih hs' (ingestStep symbol reinvest priceOn (s0, c) q).1
        (ingestStep symbol reinvest priceOn (s0, c) q).2 p hp

/-- C2: calling ingest_dividends_for_holding_range a second time on the
state produced by a first call over the same (strictly date-sorted) series,
with the same price availability, leaves the state unchanged and returns
zero events added: every event the first call created carries its marker on
its date, and the skip conditions reproduce. -/
theorem ingest_idempotent (symbol : Str) (reinvest : Bool) (priceOn : Nat → Option ℚ)
    (s0 : IngestState) (series : List (Nat × ℚ))
    (hs : List.Pairwise (· < ·) (series.map Prod.fst)) :
    ingest_dividends_for_holding_range symbol reinvest priceOn
        (ingest_dividends_for_holding_range symbol reinvest priceOn s0 series).1 series
      = ((ingest_dividends_for_holding_range symbol reinvest priceOn s0 series).1, 0) := by
  unfold ingest_dividends_for_holding_range
  exact ingest_fold_settled symbol reinvest priceOn series _ 0
    (fun p hp => ingest_fold_settles_all symbol reinvest priceOn series hs s0 0 p hp)

/-- Witness for C2 at a concrete holding, series and price function. -/
theorem ingest_idempotent_witness :
    ingest_dividends_for_holding_range ['A'] false (fun _ => none)
        (ingest_dividends_for_holding_range ['A'] false (fun _ => none)
          ⟨[⟨some 0, EventType.purchase, 1, 1, 0, []⟩], []⟩ [(1, 2)]).1 [(1, 2)]
      = ((ingest_dividends_for_holding_range ['A'] false (fun _ => none)
          ⟨[⟨some 0, EventType.purchase, 1, 1, 0, []⟩], []⟩ [(1, 2)]).1, 0) :=
  ingest_idempotent ['A'] false (fun _ => none)
    ⟨[⟨some 0, EventType.purchase, 1, 1, 0, []⟩], []⟩ [(1, 2)] (by decide)

/-- C4: if the first full-range ingestion pass for a holding reports a
positive number of added events (and the cache comparison did not skip the
symbol), the per-file driver performs exactly one additional ingestion pass
over the same range before moving on; during that second pass the state at
every series position is the first pass's final state, so the owned-shares
value used at a later ex-date D2 is the clamped delta sum over all events of
that state dated at most D2 -- a list that contains any DRIP purchase the
first pass created at an earlier ex-date D1 ≤ D2. -/
theorem driver_second_pass_sees_drip (symbol : Str) (priceOn : Nat → Option ℚ)
    (series : List (Nat × ℚ)) (cacheMap : List (Nat × ℚ)) (s0 : IngestState)
    (pre post : List (Nat × ℚ)) (D2 : Nat) (a : ℚ) (e : Event) (D1 : Nat)
    (hs : List.Pairwise (· < ·) (series.map Prod.fst))
    (hne : series ≠ [])
    (hns : ((((series.map Prod.fst).filter
        (fun d => !((cacheMap.map Prod.fst).contains d))).isEmpty)
        && !(cacheMap.map Prod.fst).isEmpty) = false)
    (hc1 : 0 < (ingest_dividends_for_holding_range symbol true priceOn s0 series).2)
    (hsplit : series = pre ++ (D2, a) :: post)
    (he : e ∈ (ingest_dividends_for_holding_range symbol true priceOn s0 series).1.holdingEvents)
    (hd : e.date = some D1) (hD : D1 ≤ D2) :
    cache_and_ingest_dividends_for_holding symbol true priceOn series cacheMap s0
      = ⟨(ingest_dividends_for_holding_range symbol true priceOn
            (ingest_dividends_for_holding_range symbol true priceOn s0 series).1 series).1,
         write_dividend_cache cacheMap series,
         (ingest_dividends_for_holding_range symbol true priceOn s0 series).2
           + (ingest_dividends_for_holding_range symbol true priceOn
               (ingest_dividends_for_holding_range symbol true priceOn s0 series).1 series).2⟩
    ∧ pre.foldl (ingestStep symbol true priceOn)
        ((ingest_dividends_for_holding_range symbol true priceOn s0 series).1, 0)
        = ((ingest_dividends_for_holding_range symbol true priceOn s0 series).1, 0)
    ∧ e ∈ (ingest_dividends_for_holding_range symbol true priceOn
          s0 series).1.holdingEvents.filter (dateLE D2)
    ∧ compute_owned_shares_on_date
        (ingest_dividends_for_holding_range symbol true priceOn s0 series).1.holdingEvents D2
      = max (((ingest_dividends_for_holding_range symbol true priceOn
          s0 series).1.holdingEvents.filter (dateLE D2)).map signedDelta).sum 0 := by
  have hset : ∀ p ∈ series, Settled symbol true priceOn
      (ingest_dividends_for_holding_range symbol true priceOn s0 series).1 p :=
    fun p hp => ingest_fold_settles_all symbol true priceOn series hs s0 0 p hp
  have hE : series.isEmpty = false := by
    cases series with
    | nil => exact absurd rfl hne
    | cons q rest => rfl
  refine ⟨?_, ?_, ?_, ?_⟩
  · unfold cache_and_ingest_dividends_for_holding
    rw [hE]
    simp only [Bool.false_eq_true, if_false]
    rw [hns]
    simp only [Bool.false_eq_true, if_false]
    rw [if_pos hc1]
  · exact ingest_fold_settled symbol true priceOn pre _ 0
      (fun p hp => hset p (by rw [hsplit]; exact List.mem_append_left _ hp))
  · exact List.mem_filter.mpr ⟨he, by simp [dateLE, hd, hD]⟩
  · rw [compute_owned_eq]
    rfl

/-- Witness for C4: two ex-dates with reinvestment; the second pass reaches
date 2 in the first pass's final state, whose date-filtered events include
the DRIP purchase created at date 1. -/
theorem driver_second_pass_sees_drip_witness :
    [(1, 1)].foldl (ingestStep ['A'] true (fun _ => some 1))
        ((ingest_dividends_for_holding_range ['A'] true (fun _ => some 1)
          ⟨[⟨some 0, EventType.purchase, 1, 1, 0, []⟩], []⟩ [(1, 1), (2, 1)]).1, 0)
      = ((ingest_dividends_for_holding_range ['A'] true (fun _ => some 1)
          ⟨[⟨some 0, EventType.purchase, 1, 1, 0, []⟩], []⟩ [(1, 1), (2, 1)]).1, 0)
    ∧ (⟨some 1, EventType.purchase, 1, 1, 0, ['D', 'R', 'I', 'P', ':', 'A']⟩ : Event)
        ∈ ((ingest_dividends_for_holding_range ['A'] true (fun _ => some 1)
            ⟨[⟨some 0, EventType.purchase, 1, 1, 0, []⟩], []⟩
            [(1, 1), (2, 1)]).1.holdingEvents.filter (dateLE 2)) := by
  have h := driver_second_pass_sees_drip ['A'] (fun _ => some 1) [(1, 1), (2, 1)] []
    ⟨[⟨some 0, EventType.purchase, 1, 1, 0, []⟩], []⟩ [(1, 1)] [] 2 1
    ⟨some 1, EventType.purchase, 1, 1, 0, ['D', 'R', 'I', 'P', ':', 'A']⟩ 1
    (by decide) (by decide) (by decide)
    (by norm_num [ingest_dividends_for_holding_range, ingestStep, divPhase, dripPhase,
      cashPhase, has_symbol_dividend_on_date, has_drip_purchase_on_date,
      has_cash_dividend_on_date, divNote, dripNote, mkDividendEvent, mkDripEvent,
      compute_owned_shares_on_date, sharesUpTo, sortEventsByDate, signedDelta,
      eventDateLE, dateKey, List.insertionSort, List.orderedInsert, List.foldl,
      List.any, List.isPrefixOf, dateLE])
    rfl
    (by norm_num [ingest_dividends_for_holding_range, ingestStep, divPhase, dripPhase,
      cashPhase, has_symbol_dividend_on_date, has_drip_purchase_on_date,
      has_cash_dividend_on_date, divNote, dripNote, mkDividendEvent, mkDripEvent,
      compute_owned_shares_on_date, sharesUpTo, sortEventsByDate, signedDelta,
      eventDateLE, dateKey, List.insertionSort, List.orderedInsert, List.foldl,
      List.any, List.isPrefixOf, dateLE])
    rfl (by norm_num)
  exact ⟨h.2.1, h.2.2.1⟩

/-! ## Lemmas: dividend cache merge -/

theorem upsertEntry_keys (m : List (Nat × ℚ)) (k : Nat) (v : ℚ) (d : Nat)
    (h : d ∈ m.map Prod.fst) : d ∈ (upsertEntry m k v).map Prod.fst := by
  unfold upsertEntry
  split
  · obtain ⟨q, hq, hqd⟩ := List.mem_map.mp h
    refine List.mem_map.mpr ⟨if q.1 == k then (k, v) else q, List.mem_map_of_mem _ hq, ?_⟩
    by_cases hk : q.1 = k
    · simp only [hk, beq_self_eq_true, if_true]
      rw [← hk]
      exact hqd
    · simp only [beq_eq_false_iff_ne.mpr hk, Bool.false_eq_true, if_false]
      exact hqd
  · rw [List.map_append]
    exact List.mem_append_left _ h

theorem write_dividend_cache_keys (series : List (Nat × ℚ)) :
    ∀ (m : List (Nat × ℚ)) (d : Nat), d ∈ m.map Prod.fst →
      d ∈ (write_dividend_cache m series).map Prod.fst := by
  induction series with
  | nil => exact fun m d h => h
  | cons q rest ih =>
    intro m d h
    show d ∈ (rest.foldl (fun acc q => upsertEntry acc q.1 q.2)
      (upsertEntry m q.1 q.2)).map Prod.fst
    exact ih (upsertEntry m q.1 q.2) d (upsertEntry_keys m q.1 q.2 d h)

/-- C9: if the freshly fetched dividend series brings no ex-date absent from
the persisted cache, the per-holding cycle is skipped entirely (state, cache
and event count unchanged); otherwise the cache is rewritten as the merge of
the existing cache with the full fetched series, and every previously cached
date is still present afterwards. -/
theorem dividend_cache_skip_and_merge (symbol : Str) (reinvest : Bool)
    (priceOn : Nat → Option ℚ) (series cacheMap : List (Nat × ℚ)) (s0 : IngestState) :
    ((∀ d ∈ series.map Prod.fst, d ∈ cacheMap.map Prod.fst) →
      cache_and_ingest_dividends_for_holding symbol reinvest priceOn series cacheMap s0
        = ⟨s0, cacheMap, 0⟩)
    ∧ ((∃ d ∈ series.map Prod.fst, d ∉ cacheMap.map Prod.fst) →
      (cache_and_ingest_dividends_for_holding symbol reinvest priceOn series cacheMap s0).cache
        = write_dividend_cache cacheMap series
      ∧ ∀ d ∈ cacheMap.map Prod.fst,
          d ∈ (cache_and_ingest_dividends_for_holding symbol reinvest priceOn
            series cacheMap s0).cache.map Prod.fst) := by
  constructor
  · intro hall
    cases hser : series with
    | nil => rfl
    | cons q rest =>
      unfold cache_and_ingest_dividends_for_holding
      have hE : (q :: rest).isEmpty = false := rfl
      rw [hE]
      simp only [Bool.false_eq_true, if_false]
      have hnew : (((q :: rest).map Prod.fst).filter
          (fun d => !((cacheMap.map Prod.fst).contains d))) = [] := by
        rw [List.filter_eq_nil_iff]
        intro d hd
        have : d ∈ cacheMap.map Prod.fst := hall d (hser ▸ hd)
        simp [this]
      have hcne : (cacheMap.map Prod.fst).isEmpty = false := by
        have hq : q.1 ∈ cacheMap.map Prod.fst := hall q.1 (hser ▸ by simp)
        simpa [List.isEmpty_iff] using List.ne_nil_of_mem hq
      rw [hnew, hcne]
      rfl
  · rintro ⟨d, hdm, hdn⟩
    have hne : series ≠ [] := by
      intro h
      rw [h] at hdm
      cases hdm
    have hE : series.isEmpty = false := by
      rcases series with _ | _
      · exact absurd rfl hne
      · rfl
    have hnew : (((series.map Prod.fst).filter
        (fun x => !((cacheMap.map Prod.fst).contains x))).isEmpty
        && !(cacheMap.map Prod.fst).isEmpty) = false := by
      have hmem : d ∈ (series.map Prod.fst).filter
          (fun x => !((cacheMap.map Prod.fst).contains x)) := by
        rw [List.mem_filter]
        refine ⟨hdm, ?_⟩
        simp [hdn]
      have : ((series.map Prod.fst).filter
          (fun x => !((cacheMap.map Prod.fst).contains x))).isEmpty = false := by
        simpa [List.isEmpty_iff] using List.ne_nil_of_mem hmem
      rw [this]
      rfl
    have hcache : (cache_and_ingest_dividends_for_holding symbol reinvest priceOn
        series cacheMap s0).cache = write_dividend_cache cacheMap series := by
      unfold cache_and_ingest_dividends_for_holding
      rw [hE]
      simp only [Bool.false_eq_true, if_false]
      rw [hnew]
      simp only [Bool.false_eq_true, if_false]
      split <;> rfl
    refine ⟨hcache, fun d2 hd2 => ?_⟩
    rw [hcache]
    exact write_dividend_cache_keys series cacheMap d2 hd2

/-- Witness for C9: a cached-only series is skipped; a series with one new
date rewrites the cache with the merge, keeping the old date. -/
theorem dividend_cache_skip_and_merge_witness :
    cache_and_ingest_dividends_for_holding ['A'] false (fun _ => none)
        [(1, 2)] [(1, 2)] ⟨[], []⟩ = ⟨⟨[], []⟩, [(1, 2)], 0⟩
    ∧ (cache_and_ingest_dividends_for_holding ['A'] false (fun _ => none)
        [(3, 1)] [(1, 2)] ⟨[], []⟩).cache = write_dividend_cache [(1, 2)] [(3, 1)]
    ∧ 1 ∈ (cache_and_ingest_dividends_for_holding ['A'] false (fun _ => none)
        [(3, 1)] [(1, 2)] ⟨[], []⟩).cache.map Prod.fst := by
  have h1 := (dividend_cache_skip_and_merge ['A'] false (fun _ => none)
    [(1, 2)] [(1, 2)] ⟨[], []⟩).1 (by decide)
  have h2 := (dividend_cache_skip_and_merge ['A'] false (fun _ => none)
    [(3, 1)] [(1, 2)] ⟨[], []⟩).2 ⟨3, by decide, by decide⟩
  exact ⟨h1, h2.1, h2.2 1 (by decide)⟩

/-! ## Lemmas: warm staleness and dirty clearing -/

theorem clear_symbol_dirty_eq_filter (d : List Str) (s : Str) :
    clear_symbol_dirty d s = d.filter (fun x => !(x == s)) := by
  unfold clear_symbol_dirty
  split
  · rfl
  case isFalse h =>
    refine (List.filter_eq_self.mpr (fun a ha => ?_)).symm
    simp only [Bool.not_eq_true']
    exact beq_eq_false_iff_ne.mpr (fun heq => h (heq ▸ ha))

theorem warmStep_spec (pm : ℚ) (dirtySnap : List Str) (cacheExists : Str → Bool)
    (cacheMtime : Str → ℚ) (computeOK : Str → Bool) (acc : WarmResult)
    (h : Str × List Event) :
    warmStep pm dirtySnap cacheExists cacheMtime computeOK acc h
      = if shouldRecompute pm dirtySnap cacheExists cacheMtime h then
          { changes := if computeOK (strUpper h.1) then acc.changes + 1 else acc.changes
            dirty := clear_symbol_dirty acc.dirty (strUpper h.1)
            calls := acc.calls ++ [strUpper h.1] }
        else acc := by
  unfold warmStep shouldRecompute
  dsimp only
  by_cases hst : staleCond pm dirtySnap cacheExists cacheMtime (strUpper h.1) = true
  · rw [if_pos hst]
    by_cases hd : (h.2.filterMap (fun e => e.date)).isEmpty = true
    · rw [if_pos hd]
      have hcond : (staleCond pm dirtySnap cacheExists cacheMtime (strUpper h.1)
          && !(h.2.filterMap (fun e => e.date)).isEmpty) = false := by
        rw [hst, hd]; rfl
      rw [hcond]
      simp
    · rw [if_neg hd]
      have hcond : (staleCond pm dirtySnap cacheExists cacheMtime (strUpper h.1)
          && !(h.2.filterMap (fun e => e.date)).isEmpty) = true := by
        rw [hst, Bool.eq_false_iff.mpr hd]; rfl
      rw [hcond]
      simp
  · rw [if_neg hst]
    have hcond : (staleCond pm dirtySnap cacheExists cacheMtime (strUpper h.1)
        && !(h.2.filterMap (fun e => e.date)).isEmpty) = false := by
      rw [Bool.eq_false_iff.mpr hst]; rfl
    rw [hcond]
    simp

theorem warm_foldl_spec (pm : ℚ) (dirtySnap : List Str) (cacheExists : Str → Bool)
    (cacheMtime : Str → ℚ) (computeOK : Str → Bool) :
    ∀ (holdings : List (Str × List Event)) (acc : WarmResult),
      (holdings.foldl (warmStep pm dirtySnap cacheExists cacheMtime computeOK) acc).calls
        = acc.calls ++ ((holdings.filter
            (shouldRecompute pm dirtySnap cacheExists cacheMtime)).map
            (fun h => strUpper h.1))
      ∧ (holdings.foldl (warmStep pm dirtySnap cacheExists cacheMtime computeOK) acc).dirty
        = acc.dirty.filter (fun x =>
            !(((holdings.filter (shouldRecompute pm dirtySnap cacheExists cacheMtime)).map
                (fun h => strUpper h.1)).contains x)) := by
  intro holdings
  induction holdings with
  | nil => intro acc; exact ⟨by simp, by simp⟩
  | cons h hs ih =>
    intro acc
    rw [List.foldl_cons, warmStep_spec]
    by_cases hc : shouldRecompute pm dirtySnap cacheExists cacheMtime h = true
    · rw [if_pos hc]
      obtain ⟨ihc, ihd⟩ := ih _
      constructor
      · rw [ihc]
        simp [List.filter_cons, hc]
      · rw [ihd]
        dsimp only
        rw [clear_symbol_dirty_eq_filter, List.filter_filter]
        rw [List.filter_cons_of_pos hc, List.map_cons]
        apply List.filter_congr
        intro x _
        cases hxu : x == strUpper h.1 <;>
          simp [List.contains, List.elem_cons, hxu]
    · rw [if_neg hc]
      obtain ⟨ihc, ihd⟩ := ih acc
      refine ⟨by rw [ihc, List.filter_cons_of_neg (by simp [hc])],
        by rw [ihd, List.filter_cons_of_neg (by simp [hc])]⟩

/-- Counterexample to C5 as stated: a symbol in the dirty set whose holding
has no dated events is not recomputed (warm skips it before calling
compute), so "recomputed regardless of mtimes" fails for it; the dirty flag
is not even cleared. -/
theorem warm_dirty_no_events_not_recomputed :
    warm_values_cache_for_portfolio true 5 [(['A'], [])] (fun _ => true)
      (fun _ => 10) [['A']] (fun _ => true) = ⟨0, [['A']], []⟩ := by decide

/-- C5 (amended): warm triggers a recompute for a holding exactly when the
staleness condition holds (cache missing, or cache mtime strictly older than
the portfolio mtime, or symbol in the dirty snapshot) and the holding has at
least one dated event. -/
theorem warm_recompute_iff (portExists : Bool) (portMtime : ℚ)
    (holdings : List (Str × List Event)) (cacheExists : Str → Bool)
    (cacheMtime : Str → ℚ) (dirty0 : List Str) (computeOK : Str → Bool)
    (huniq : (holdings.map (fun h => strUpper h.1)).Nodup)
    (h : Str × List Event) (hmem : h ∈ holdings) :
    (strUpper h.1 ∈ (warm_values_cache_for_portfolio portExists portMtime holdings
        cacheExists cacheMtime dirty0 computeOK).calls)
      ↔ (staleCond (if portExists then portMtime else 0) dirty0 cacheExists cacheMtime
            (strUpper h.1) = true
         ∧ h.2.filterMap (fun e => e.date) ≠ []) := by
  have hspec := (warm_foldl_spec (if portExists then portMtime else 0) dirty0 cacheExists
    cacheMtime computeOK holdings ⟨0, dirty0, []⟩).1
  unfold warm_values_cache_for_portfolio
  dsimp only
  rw [hspec]
  simp only [List.nil_append]
  constructor
  · intro hin
    obtain ⟨h2, hh2, heq⟩ := List.mem_map.mp hin
    have hh2m : h2 ∈ holdings := List.mem_of_mem_filter hh2
    have heq2 : h2 = h := List.inj_on_of_nodup_map huniq hh2m hmem heq
    subst heq2
    have hsr := List.of_mem_filter hh2
    unfold shouldRecompute at hsr
    rw [Bool.and_eq_true] at hsr
    refine ⟨hsr.1, fun hnil => ?_⟩
    rw [hnil] at hsr
    simp at hsr
  · rintro ⟨hst, hne⟩
    apply List.mem_map.mpr
    refine ⟨h, List.mem_filter.mpr ⟨hmem, ?_⟩, rfl⟩
    unfold shouldRecompute
    rw [hst]
    simp [List.isEmpty_iff, hne]

/-- Witness for amended C5: a dirty symbol with a dated event is recomputed. -/
theorem warm_recompute_iff_witness :
    strUpper ['A'] ∈ (warm_values_cache_for_portfolio true 5
        [(['A'], [⟨some 1, EventType.purchase, 1, 1, 0, []⟩])]
        (fun _ => true) (fun _ => 10) [['A']] (fun _ => true)).calls :=
  (warm_recompute_iff true 5 [(['A'], [⟨some 1, EventType.purchase, 1, 1, 0, []⟩])]
      (fun _ => true) (fun _ => 10) [['A']] (fun _ => true) (by decide)
      (['A'], [⟨some 1, EventType.purchase, 1, 1, 0, []⟩]) (by decide)).mpr
    ⟨by decide, by decide⟩

/-- Counterexample to C6 as stated: a dirty symbol whose recompute is
attempted but fails (computeOK false, counter stays 0) still has its dirty
entry cleared -- the source calls clear_symbol_dirty unconditionally after
the attempt. -/
theorem warm_failed_compute_clears_dirty :
    warm_values_cache_for_portfolio true 5
      [(['A'], [⟨some 1, EventType.purchase, 1, 1, 0, []⟩])]
      (fun _ => false) (fun _ => 0) [['A']] (fun _ => false) = ⟨0, [], [['A']]⟩ := by decide

/-- C6 (amended): a symbol's dirty entry survives warm exactly when it was
dirty before and no recompute was attempted for it; the final dirty set and
the attempted-recompute list do not depend on whether computes succeed. -/
theorem warm_dirty_cleared_iff_attempted (portExists : Bool) (portMtime : ℚ)
    (holdings : List (Str × List Event)) (cacheExists : Str → Bool)
    (cacheMtime : Str → ℚ) (dirty0 : List Str) (computeOK computeOK2 : Str → Bool)
    (sym : Str) :
    (sym ∈ (warm_values_cache_for_portfolio portExists portMtime holdings cacheExists
        cacheMtime dirty0 computeOK).dirty
      ↔ sym ∈ dirty0
        ∧ sym ∉ (warm_values_cache_for_portfolio portExists portMtime holdings cacheExists
            cacheMtime dirty0 computeOK).calls)
    ∧ (warm_values_cache_for_portfolio portExists portMtime holdings cacheExists
        cacheMtime dirty0 computeOK).dirty
      = (warm_values_cache_for_portfolio portExists portMtime holdings cacheExists
          cacheMtime dirty0 computeOK2).dirty
    ∧ (warm_values_cache_for_portfolio portExists portMtime holdings cacheExists
        cacheMtime dirty0 computeOK).calls
      = (warm_values_cache_for_portfolio portExists portMtime holdings cacheExists
          cacheMtime dirty0 computeOK2).calls := by
  have hs1 := warm_foldl_spec (if portExists then portMtime else 0) dirty0 cacheExists
    cacheMtime computeOK holdings ⟨0, dirty0, []⟩
  have hs2 := warm_foldl_spec (if portExists then portMtime else 0) dirty0 cacheExists
    cacheMtime computeOK2 holdings ⟨0, dirty0, []⟩
  unfold warm_values_cache_for_portfolio
  dsimp only
  refine ⟨?_, ?_, ?_⟩
  · rw [hs1.2, hs1.1]
    simp only [List.nil_append]
    rw [List.mem_filter]
    simp
  · rw [hs1.2, hs2.2]
  · rw [hs1.1, hs2.1]

/-! ## Lemmas: market data gateway -/

/-- Counterexample to C8 as stated: fetch_dividends wraps the provider's
dividends accessor in no try/except and no retry, so a provider exception
propagates to the caller rather than being surfaced as an empty series. -/
theorem fetch_dividends_propagates_error :
    fetch_dividends (Except.error ()) 0 1 = Except.error () := rfl

theorem withRetries_all_fail {α : Type} (calls : Nat → Except Unit α)
    (h : ∀ i, ∃ e, calls i = Except.error e) :
    withRetries calls 3 2 = (none, [2, 4, 8]) := by
  obtain ⟨e0, h0⟩ := h 0
  obtain ⟨e1, h1⟩ := h 1
  obtain ⟨e2, h2⟩ := h 2
  show withRetriesAux calls 2 0 (2 + 1) = (none, [2, 4, 8])
  rw [withRetriesAux, h0]
  show (_, (2 : ℚ) * 2 ^ 0 :: (withRetriesAux calls 2 1 (1 + 1)).2) = _
  rw [withRetriesAux, h1]
  show (_, _ :: (2 : ℚ) * 2 ^ 1 :: (withRetriesAux calls 2 2 (0 + 1)).2) = _
  rw [withRetriesAux, h2]
  show (_, _ :: _ :: (2 : ℚ) * 2 ^ 2 :: (withRetriesAux calls 2 3 0).2) = _
  rw [withRetriesAux]
  norm_num

/-- C8 (amended): the retry wrapper performs a fixed 3 attempts with
exponential backoff sleeps 2, 4, 8 seconds (base 2, factor 2) and returns
none after the final failure; fetch_price_history surfaces total API failure
as an empty frame after those sleeps and is a total function;
fetch_dividends returns an empty series when the provider yields none or an
empty series, but propagates a provider exception unchanged (it has no
retry wrapper or exception handler around the dividends accessor). -/
theorem retry_and_fetch_error_handling :
    (∀ (α : Type) (calls : Nat → Except Unit α),
        (∀ i, ∃ e, calls i = Except.error e) →
        withRetries calls 3 2 = (none, [2, 4, 8]))
    ∧ (∀ calls : Nat → Except Unit (List (Nat × ℚ)),
        (∀ i, ∃ e, calls i = Except.error e) →
        fetch_price_history none false true calls = ([], [2, 4, 8]))
    ∧ (∀ startDate endDate : Nat,
        fetch_dividends (Except.ok none) startDate endDate = Except.ok []
        ∧ fetch_dividends (Except.ok (some [])) startDate endDate = Except.ok [])
    ∧ (∀ (err : Unit) (startDate endDate : Nat),
        fetch_dividends (Except.error err) startDate endDate = Except.error err) := by
  refine ⟨fun α calls h => withRetries_all_fail calls h, fun calls h => ?_,
    fun s e => ⟨rfl, rfl⟩, fun err s e => rfl⟩
  unfold fetch_price_history fetchPriceFallback
  rw [withRetries_all_fail calls h]
  rfl

/-- Witness for amended C8 at an always-failing provider. -/
theorem retry_and_fetch_error_handling_witness :
    withRetries (fun _ => (Except.error () : Except Unit (List (Nat × ℚ)))) 3 2
      = (none, [2, 4, 8])
    ∧ fetch_price_history none false true (fun _ => Except.error ()) = ([], [2, 4, 8]) :=
  ⟨retry_and_fetch_error_handling.1 _ _ (fun _ => ⟨(), rfl⟩),
   retry_and_fetch_error_handling.2.1 _ (fun _ => ⟨(), rfl⟩)⟩
